import Mathlib

/-!
Verification development for the sugar-python repository.

Shallow embedding of:
* the pagination engine (`sugar/core/pagination.py`),
* the price resolution engine (`sugar/services/price_provider.py`),
* the aggregation and vote-weight helpers (`sugar/services/data_processor.py`),
* the decimal scaling utilities (`sugar/utils/wei.py`).

Modelling conventions:
* Python `Decimal` values and `float` values are modelled as `ℚ`.  Python's
  `Decimal` arithmetic operates in the default context: results of `*` and `/`
  are rounded to 28 significant digits with ROUND_HALF_EVEN.  This rounding is
  modelled by `Sugar.decRound` below (multiplications whose operands are exact
  powers of ten only shift the exponent and are exact, so they are modelled as
  exact products).
* `time.time()` is modelled as an explicit integer `now : ℤ` threaded through
  the state-passing functions (so `int(time.time())` is the identity).
* Python exceptions are modelled with `Option`/`Except`: a fallible callee is a
  function returning `Option _`, `none` standing for a raised exception.
* Caller-supplied fetch functions with transient failures are modelled as
  functions that additionally receive the paginator's consecutive-failure
  counter (the cursor only moves on success, so that counter is exactly the
  number of consecutive preceding attempts at the current cursor).
* Python dictionaries are modelled as association lists where insertion conses
  the new binding at the head, so `List.lookup` sees the latest binding first,
  matching dictionary overwrite semantics.
-/

namespace Sugar

/-! ## Decimal model (`decimal.Decimal`, default context: 28 digits, half-even) -/

/-- Round a rational to the nearest integer, ties to even
(Python `decimal` ROUND_HALF_EVEN). -/
def roundHalfEven (x : ℚ) : ℤ :=
  let f := ⌊x⌋
  if x - f < 1 / 2 then f
  else if 1 / 2 < x - f then f + 1
  else if f % 2 = 0 then f else f + 1

/-- Round a rational to 28 significant decimal digits, half-even: the value of
a Python `Decimal` arithmetic result in the default context.  The adjusted
exponent of `q` is `Int.log 10 |q|`; the result is the nearest multiple of
`10 ^ (adjusted exponent - 27)` (ties to even), which is `q` itself whenever
`q` is representable with at most 28 significant digits. -/
def decRound (q : ℚ) : ℚ :=
  if q = 0 then 0
  else
    (roundHalfEven (q / 10 ^ (Int.log 10 |q| - 27)) : ℚ) * 10 ^ (Int.log 10 |q| - 27)

/-- Truncation toward zero, the behaviour of Python `int()` on a `Decimal`. -/
def ratTrunc (q : ℚ) : ℤ :=
  if 0 ≤ q then ⌊q⌋ else ⌈q⌉

/-! ## `sugar/utils/wei.py` -/

/-- `from_wei(value, decimals)`: `Decimal(value) / Decimal(10**decimals)`.
The division is a `Decimal` context operation, hence the `decRound`. -/
def from_wei (value : ℤ) (decimals : ℕ) : ℚ :=
  decRound ((value : ℚ) / 10 ^ decimals)

/-- `to_wei(value, decimals)` on an integer input:
`int(Decimal(str(value)) * Decimal(10**decimals))`.  The constructor
`Decimal(str(value))` is exact; the multiplication is a context operation. -/
def to_wei (value : ℤ) (decimals : ℕ) : ℤ :=
  ratTrunc (decRound ((value : ℚ) * 10 ^ decimals))

theorem roundHalfEven_intCast (n : ℤ) : roundHalfEven (n : ℚ) = n := by
  simp [roundHalfEven]

theorem roundHalfEven_nonneg {x : ℚ} (hx : 0 ≤ x) : 0 ≤ roundHalfEven x := by
  have h0 : (0 : ℤ) ≤ ⌊x⌋ := Int.floor_nonneg.mpr hx
  unfold roundHalfEven
  dsimp only
  split
  · exact h0
  · split
    · omega
    · split <;> omega

/-- An exactness lemma for `decRound`: a value that is an integer multiple of
`10 ^ e'` for some exponent `e'` at least the result exponent is returned
unchanged. -/
theorem decRound_eq_self_of_mul_zpow {q : ℚ} (m e' : ℤ)
    (hq : q = (m : ℚ) * 10 ^ e') (he : Int.log 10 |q| - 27 ≤ e') :
    decRound q = q := by
  by_cases h0 : q = 0
  · simp [decRound, h0]
  · unfold decRound
    rw [if_neg h0]
    have h10 : (10 : ℚ) ≠ 0 := by norm_num
    set e : ℤ := Int.log 10 |q| - 27 with he_def
    have hk : e' - e = ((e' - e).toNat : ℤ) := by omega
    have hdiv : q / 10 ^ e = ((m * 10 ^ (e' - e).toNat : ℤ) : ℚ) := by
      rw [hq, mul_div_assoc, ← zpow_sub₀ h10, hk, zpow_natCast]
      norm_cast
    rw [hdiv, roundHalfEven_intCast]
    push_cast
    rw [mul_assoc, ← zpow_natCast (10 : ℚ) (e' - e).toNat, ← zpow_add₀ h10]
    have hke : ((e' - e).toNat : ℤ) + e = e' := by omega
    rw [hke, ← hq]

theorem decRound_intCast {x : ℤ} (hx : |x| < 10 ^ 28) : decRound (x : ℚ) = x := by
  by_cases h0 : x = 0
  · simp [decRound, h0]
  · apply decRound_eq_self_of_mul_zpow x 0
    · simp
    · have hpos : (0 : ℚ) < |(x : ℚ)| := by
        simp only [abs_pos, ne_eq, Int.cast_eq_zero]
        exact h0
      have hlt : |(x : ℚ)| < (10 : ℚ) ^ (28 : ℤ) := by
        rw [← Int.cast_abs]
        rw [show ((28 : ℤ)) = ((28 : ℕ) : ℤ) by norm_num, zpow_natCast]
        exact_mod_cast hx
      have := (Int.lt_zpow_iff_log_lt (by norm_num : 1 < 10) hpos).mp hlt
      omega

theorem decRound_nonneg {q : ℚ} (hq : 0 ≤ q) : 0 ≤ decRound q := by
  unfold decRound
  split
  · exact le_refl 0
  · have h1 : (0 : ℚ) < 10 ^ (Int.log 10 |q| - 27) := by positivity
    have h2 : 0 ≤ q / 10 ^ (Int.log 10 |q| - 27) := div_nonneg hq h1.le
    have h3 := roundHalfEven_nonneg h2
    positivity

theorem ratTrunc_intCast (n : ℤ) : ratTrunc (n : ℚ) = n := by
  unfold ratTrunc
  split <;> simp

/-- Exactness of `decRound` on `x * 10 ^ d` for `|x| < 10 ^ 28`: the digits
dropped when rounding to 28 significant digits are all trailing zeros. -/
theorem decRound_int_mul_pow {x : ℤ} (d : ℕ) (hx : |x| < 10 ^ 28) :
    decRound ((x : ℚ) * 10 ^ d) = (x : ℚ) * 10 ^ d := by
  by_cases h0 : x = 0
  · simp [decRound, h0]
  · apply decRound_eq_self_of_mul_zpow x d
    · rw [show ((d : ℤ)) = ((d : ℕ) : ℤ) from rfl, zpow_natCast]
    · have hpos : (0 : ℚ) < |(x : ℚ) * 10 ^ d| := by
        apply abs_pos.mpr
        apply mul_ne_zero
        · exact_mod_cast h0
        · positivity
      have hlt : |(x : ℚ) * 10 ^ d| < (10 : ℚ) ^ ((28 + d : ℕ) : ℤ) := by
        rw [abs_mul, abs_pow, abs_of_nonneg (by norm_num : (0 : ℚ) ≤ 10)]
        rw [zpow_natCast, pow_add]
        apply mul_lt_mul_of_pos_right _ (by positivity)
        rw [← Int.cast_abs]
        exact_mod_cast hx
      have := (Int.lt_zpow_iff_log_lt (by norm_num : 1 < 10) hpos).mp hlt
      omega

theorem roundHalfEven_eq_floor {x : ℚ} (h : x - ⌊x⌋ < 1 / 2) :
    roundHalfEven x = ⌊x⌋ := by
  unfold roundHalfEven
  simp only
  rw [if_pos h]

theorem to_wei_pow28_succ : to_wei (10 ^ 28 + 1) 0 = 10 ^ 28 := by
  have hcast : ((10 ^ 28 + 1 : ℤ) : ℚ) * 10 ^ (0 : ℕ) = ((10 ^ 28 + 1 : ℕ) : ℚ) := by
    push_cast
    ring
  have habs : |((10 ^ 28 + 1 : ℕ) : ℚ)| = ((10 ^ 28 + 1 : ℕ) : ℚ) := by
    rw [abs_of_pos]
    positivity
  have hlog : Int.log 10 |((10 ^ 28 + 1 : ℕ) : ℚ)| = 28 := by
    rw [habs, Int.log_natCast]
    have := Nat.log_eq_of_pow_le_of_lt_pow
      (b := 10) (m := 28) (n := 10 ^ 28 + 1) (by norm_num) (by norm_num)
    exact_mod_cast this
  have hne : ((10 ^ 28 + 1 : ℕ) : ℚ) ≠ 0 := by positivity
  have hfloor : ⌊((10 ^ 28 + 1 : ℕ) : ℚ) / 10 ^ (1 : ℤ)⌋ = 10 ^ 27 := by
    rw [Int.floor_eq_iff]
    constructor
    · rw [le_div_iff₀ (by positivity : (0 : ℚ) < 10 ^ (1 : ℤ))]
      push_cast
      rw [zpow_one]
      norm_num
    · rw [div_lt_iff₀ (by positivity : (0 : ℚ) < 10 ^ (1 : ℤ))]
      push_cast
      rw [zpow_one]
      norm_num
  have hfrac : ((10 ^ 28 + 1 : ℕ) : ℚ) / 10 ^ (1 : ℤ) -
      (⌊((10 ^ 28 + 1 : ℕ) : ℚ) / 10 ^ (1 : ℤ)⌋ : ℚ) < 1 / 2 := by
    rw [hfloor]
    push_cast
    rw [zpow_one]
    norm_num
  have hround : roundHalfEven (((10 ^ 28 + 1 : ℕ) : ℚ) / 10 ^ (1 : ℤ)) = 10 ^ 27 := by
    rw [roundHalfEven_eq_floor hfrac, hfloor]
  unfold to_wei decRound
  rw [hcast, if_neg hne, hlog]
  have h271 : (28 : ℤ) - 27 = 1 := by norm_num
  rw [h271, hround]
  have hfin : ((10 ^ 27 : ℤ) : ℚ) * 10 ^ (1 : ℤ) = ((10 ^ 28 : ℤ) : ℚ) := by
    push_cast
    rw [zpow_one]
    norm_num
  rw [hfin, ratTrunc_intCast]

theorem from_wei_pow28 : from_wei (10 ^ 28) 0 = ((10 : ℚ) ^ 28) := by
  unfold from_wei
  have hq : ((10 ^ 28 : ℤ) : ℚ) / 10 ^ (0 : ℕ) = ((10 ^ 27 : ℤ) : ℚ) * 10 ^ (1 : ℤ) := by
    push_cast
    rw [zpow_one]
    norm_num
  rw [hq, decRound_eq_self_of_mul_zpow (10 ^ 27) 1 rfl]
  · push_cast
    rw [zpow_one]
    norm_num
  · have habs : |((10 ^ 27 : ℤ) : ℚ) * 10 ^ (1 : ℤ)| = ((10 ^ 28 : ℕ) : ℚ) := by
      rw [abs_of_pos (by positivity)]
      push_cast
      rw [zpow_one]
      norm_num
    rw [habs, Int.log_natCast, Nat.log_pow (by norm_num : 1 < 10)]
    norm_num

/-- Claim C9 (amended): the decimal scaling round-trip `from_wei (to_wei x d) d = x`
holds for `d ∈ {0, 6, 8, 18}` and every integer `x` representable within the
`Decimal` context precision, i.e. `|x| < 10 ^ 28`; rounding to 28 significant
digits then only drops trailing zeros of `x * 10 ^ d` and the division back is
exact. -/
theorem wei_round_trip_representable (x : ℤ) (d : ℕ) (hx : |x| < 10 ^ 28)
    (_hd : d ∈ [0, 6, 8, 18]) :
    from_wei (to_wei x d) d = (x : ℚ) := by
  have h1 : to_wei x d = x * 10 ^ d := by
    unfold to_wei
    rw [decRound_int_mul_pow d hx]
    have h : (x : ℚ) * 10 ^ d = ((x * 10 ^ d : ℤ) : ℚ) := by
      push_cast
      ring
    rw [h, ratTrunc_intCast]
  rw [h1]
  unfold from_wei
  have h2 : ((x * 10 ^ d : ℤ) : ℚ) / 10 ^ d = (x : ℚ) := by
    push_cast
    rw [mul_div_assoc, div_self (by positivity : (10 : ℚ) ^ d ≠ 0), mul_one]
  rw [h2, decRound_intCast hx]

theorem wei_round_trip_witness :
    |(123456 : ℤ)| < 10 ^ 28 ∧ (6 : ℕ) ∈ [0, 6, 8, 18] ∧
      from_wei (to_wei 123456 6) 6 = ((123456 : ℤ) : ℚ) :=
  ⟨by norm_num, by decide,
    wei_round_trip_representable 123456 6 (by norm_num) (by decide)⟩

/-- Claim C9 fails as stated for every integer `x`: at `x = 10 ^ 28 + 1` and
`d = 0` the `Decimal` multiplication inside `to_wei` rounds the 29-digit value
to 28 significant digits (half-even), so the round trip returns `10 ^ 28`
instead of `10 ^ 28 + 1`. -/
theorem wei_round_trip_counterexample :
    from_wei (to_wei (10 ^ 28 + 1) 0) 0 = ((10 : ℚ) ^ 28) ∧
      from_wei (to_wei (10 ^ 28 + 1) 0) 0 ≠ ((10 ^ 28 + 1 : ℤ) : ℚ) := by
  rw [to_wei_pow28_succ, from_wei_pow28]
  constructor
  · rfl
  · push_cast
    norm_num

/-! ## `sugar/core/pagination.py`

`paginate` and `paginate_by_id` are generators driven by a caller-supplied
`fetch_fn(limit, offset)`.  The embedding is a fuel-indexed recursion on an
explicit state `(offset, current_limit, retries)`.  A fetch call is modelled as
`fetch current_limit offset retries`, the extra `retries` argument standing for
the environment's injected transient failures (`none` models a raised
exception); since the cursor only moves on success, `retries` is exactly the
number of consecutive preceding failed attempts at the current cursor.

Each run returns the yielded pages (`none` models `PaginationError`, or
exhausted fuel) together with the trace of `(limit, offset)` arguments of every
fetch call issued, in order. -/

/-- One run of `paginate`'s `while True` loop from state
`(offset, current_limit, retries)`. -/
def paginateGo (fetch : ℕ → ℕ → ℕ → Option (List α)) (limit maxRetries : ℕ)
    (reduceLimitOnError : Bool) :
    ℕ → ℕ → ℕ → ℕ → Option (List (List α)) × List (ℕ × ℕ)
  | 0, _, _, _ => (none, [])
  | fuel + 1, offset, currentLimit, retries =>
    match fetch currentLimit offset retries with
    | some result =>
      if result.isEmpty then (some [], [(currentLimit, offset)])
      else
        let next := paginateGo fetch limit maxRetries reduceLimitOnError fuel
          (offset + result.length) limit 0
        (next.1.map fun pages => result :: pages, (currentLimit, offset) :: next.2)
    | none =>
      if maxRetries ≤ retries + 1 then (none, [(currentLimit, offset)])
      else if reduceLimitOnError ∧ 1 < currentLimit then
        let next := paginateGo fetch limit maxRetries reduceLimitOnError fuel
          offset (max 1 (currentLimit / 2)) (retries + 1)
        (next.1, (currentLimit, offset) :: next.2)
      else
        let next := paginateGo fetch limit maxRetries reduceLimitOnError fuel
          offset currentLimit (retries + 1)
        (next.1, (currentLimit, offset) :: next.2)

/-- `paginate(fetch_fn, limit, start_offset, max_retries, reduce_limit_on_error)`. -/
def paginate (fetch : ℕ → ℕ → ℕ → Option (List α)) (limit startOffset maxRetries : ℕ)
    (reduceLimitOnError : Bool) (fuel : ℕ) :
    Option (List (List α)) × List (ℕ × ℕ) :=
  paginateGo fetch limit maxRetries reduceLimitOnError fuel startOffset limit 0

/-- One run of `paginate_by_id`'s loop; `idOf` models `item[id_index]`.  The
only differences from `paginateGo` are the successful-batch cursor update
(`last item's id + 1`) and the failure branch at page size 1, which skips the
poison id and resets the page size. -/
def paginateByIdGo (fetch : ℕ → ℕ → ℕ → Option (List α)) (idOf : α → ℕ)
    (limit maxRetries : ℕ) (reduceLimitOnError : Bool) :
    ℕ → ℕ → ℕ → ℕ → Option (List (List α)) × List (ℕ × ℕ)
  | 0, _, _, _ => (none, [])
  | fuel + 1, offset, currentLimit, retries =>
    match fetch currentLimit offset retries with
    | some result =>
      match result with
      | [] => (some [], [(currentLimit, offset)])
      | x :: xs =>
        let lastId := idOf ((x :: xs).getLast (List.cons_ne_nil x xs))
        let next := paginateByIdGo fetch idOf limit maxRetries reduceLimitOnError fuel
          (lastId + 1) limit 0
        (next.1.map fun pages => (x :: xs) :: pages, (currentLimit, offset) :: next.2)
    | none =>
      if maxRetries ≤ retries + 1 then (none, [(currentLimit, offset)])
      else if reduceLimitOnError ∧ 1 < currentLimit then
        let next := paginateByIdGo fetch idOf limit maxRetries reduceLimitOnError fuel
          offset (max 1 (currentLimit / 2)) (retries + 1)
        (next.1, (currentLimit, offset) :: next.2)
      else
        let next := paginateByIdGo fetch idOf limit maxRetries reduceLimitOnError fuel
          (offset + 1) limit (retries + 1)
        (next.1, (currentLimit, offset) :: next.2)

/-- `paginate_by_id(fetch_fn, id_index, limit, start_id, ...)`. -/
def paginate_by_id (fetch : ℕ → ℕ → ℕ → Option (List α)) (idOf : α → ℕ)
    (limit startId maxRetries : ℕ) (reduceLimitOnError : Bool) (fuel : ℕ) :
    Option (List (List α)) × List (ℕ × ℕ) :=
  paginateByIdGo fetch idOf limit maxRetries reduceLimitOnError fuel startId limit 0

/-- The accumulation loop of `collect_paginated`: extend, then truncate and
stop once `max_items` is reached. -/
def collectPages (maxItems : Option ℕ) : List (List α) → List α → List α
  | [], acc => acc
  | page :: rest, acc =>
    let acc' := acc ++ page
    match maxItems with
    | some m => if m ≤ acc'.length then acc'.take m else collectPages maxItems rest acc'
    | none => collectPages maxItems rest acc'

/-- `collect_paginated(fetch_fn, limit, start_offset, max_items)`: drains
`paginate` (with its default `max_retries=3`, `reduce_limit_on_error=True`)
into a single list. -/
def collect_paginated (fetch : ℕ → ℕ → ℕ → Option (List α))
    (limit startOffset : ℕ) (maxItems : Option ℕ) (fuel : ℕ) : Option (List α) :=
  (paginate fetch limit startOffset 3 true fuel).1.map fun pages =>
    collectPages maxItems pages []

/-- The first fetch call of a (fueled) run is at the current state. -/
theorem paginateGo_trace_head (fetch : ℕ → ℕ → ℕ → Option (List α))
    (limit maxRetries : ℕ) (reduce : Bool) (fuel offset currentLimit retries : ℕ) :
    (paginateGo fetch limit maxRetries reduce (fuel + 1) offset currentLimit retries).2.head? =
      some (currentLimit, offset) := by
  rw [paginateGo]
  cases hf : fetch currentLimit offset retries with
  | none =>
    simp only
    split
    · rfl
    · split <;> rfl
  | some result =>
    simp only
    split <;> rfl

/-- Analogue of `paginateGo_trace_head` for the id-based paginator. -/
theorem paginateByIdGo_trace_head (fetch : ℕ → ℕ → ℕ → Option (List α)) (idOf : α → ℕ)
    (limit maxRetries : ℕ) (reduce : Bool) (fuel offset currentLimit retries : ℕ) :
    (paginateByIdGo fetch idOf limit maxRetries reduce (fuel + 1)
        offset currentLimit retries).2.head? =
      some (currentLimit, offset) := by
  rw [paginateByIdGo]
  cases hf : fetch currentLimit offset retries with
  | none =>
    simp only
    split
    · rfl
    · split <;> rfl
  | some result =>
    rcases result with _ | ⟨x, xs⟩ <;> rfl

/-- A backing store of two records served in pages of one record, so every
successful batch is shorter than a requested page size of 2. -/
def shortBatchFetch : ℕ → ℕ → ℕ → Option (List ℕ) :=
  fun limitArg offset _ => some ((([10, 20] : List ℕ).drop offset).take (min limitArg 1))

/-- Claim C1 fails on the code: with page size 2 the first batch `[10]` has
length 1 < 2, yet `paginate` yields it and then issues two further fetch calls
(at offsets 1 and 2) instead of stopping; the run only stops on the empty
batch.  The trace lists the `(limit, offset)` of every fetch call issued. -/
theorem paginate_short_batch_counterexample :
    (paginate shortBatchFetch 2 0 3 true 10).1 = some [[10], [20]] ∧
      (paginate shortBatchFetch 2 0 3 true 10).2 = [(2, 0), (2, 1), (2, 2)] ∧
      ([10] : List ℕ).length < 2 ∧
      (paginate shortBatchFetch 2 0 3 true 10).2 ≠ [(2, 0)] := by
  decide

/-- Claim C1 (amended): under the offset cursor discipline the final batch is
the EMPTY batch, not a short one: an empty successful batch stops the run with
no further fetch call, while a non-empty successful batch — even one strictly
shorter than the requested page size — is yielded and followed by another
fetch call at the cursor advanced by the batch length (with the page size
reset to the configured default). -/
theorem paginate_stop_iff_empty_batch (fetch : ℕ → ℕ → ℕ → Option (List α))
    (limit maxRetries : ℕ) (reduce : Bool) (fuel offset currentLimit retries : ℕ) :
    (fetch currentLimit offset retries = some [] →
      paginateGo fetch limit maxRetries reduce (fuel + 1) offset currentLimit retries =
        (some [], [(currentLimit, offset)])) ∧
    (∀ result, fetch currentLimit offset retries = some result → result ≠ [] →
      (paginateGo fetch limit maxRetries reduce (fuel + 2)
          offset currentLimit retries).2[1]? =
        some (limit, offset + result.length)) := by
  constructor
  · intro h
    rw [paginateGo, h]
    rfl
  · intro result h hne
    rw [paginateGo, h]
    have hempty : result.isEmpty = false := by
      cases result
      · exact absurd rfl hne
      · rfl
    simp only [hempty, Bool.false_eq_true, if_false]
    have hhead := paginateGo_trace_head fetch limit maxRetries reduce fuel
      (offset + result.length) limit 0
    cases ht : (paginateGo fetch limit maxRetries reduce (fuel + 1)
        (offset + result.length) limit 0).2 with
    | nil => rw [ht] at hhead; exact absurd hhead (by simp)
    | cons x rest =>
      rw [ht] at hhead
      simp only [List.head?_cons, Option.some.injEq] at hhead
      simp [ht, hhead]

theorem paginate_stop_iff_empty_batch_witness :
    (paginateGo (fun _ _ _ => some ([] : List ℕ)) 5 3 true 9 0 5 0 =
        (some [], [(5, 0)])) ∧
      (paginateGo (fun _ _ _ => some ([7] : List ℕ)) 5 3 true 9 2 5 0).2[1]? =
        some (5, 3) :=
  ⟨(paginate_stop_iff_empty_batch (fun _ _ _ => some ([] : List ℕ))
      5 3 true 8 0 5 0).1 rfl,
    (paginate_stop_iff_empty_batch (fun _ _ _ => some ([7] : List ℕ))
      5 3 true 7 2 5 0).2 [7] rfl (by decide)⟩

/-- A fetch environment that fails the first two attempts at cursor 0 and
then returns an empty batch. -/
def offsetPoisonFetch : ℕ → ℕ → ℕ → Option (List ℕ) :=
  fun _ offset retries => if offset = 0 ∧ retries < 2 then none else some []

/-- Claim C3 fails on the code: in the OFFSET paginator, after the page size
has degraded to 1 (first failure halves 2 to 1) and the fetch fails again, the
third fetch call is issued at the SAME cursor 0 with page size still 1 — the
cursor is not advanced to 1 and the page size is not reset to the default 2.
Only `paginate_by_id` has the skip-and-reset step. -/
theorem paginate_no_skip_counterexample :
    (paginate offsetPoisonFetch 2 0 3 true 10).2 = [(2, 0), (1, 0), (1, 0)] ∧
      (paginate offsetPoisonFetch 2 0 3 true 10).2[2]? ≠ some (2, 1) := by
  decide

/-- Claim C3 (amended): on a transient fetch fault with page size above 1,
both paginators halve the page size (floor 1) and retry at the same cursor;
but once the page size has degraded to 1 and the fetch still fails, only the
monotonic-id paginator advances the cursor by one unit and resets the page
size to the configured default — the offset paginator retries at the same
cursor with page size still 1. -/
theorem adaptive_failure_handling (fetch : ℕ → ℕ → ℕ → Option (List α)) (idOf : α → ℕ)
    (limit maxRetries fuel offset currentLimit retries : ℕ) :
    (fetch currentLimit offset retries = none → retries + 2 ≤ maxRetries →
      1 < currentLimit →
      (paginateGo fetch limit maxRetries true (fuel + 2)
          offset currentLimit retries).2[1]? =
          some (max 1 (currentLimit / 2), offset) ∧
      (paginateByIdGo fetch idOf limit maxRetries true (fuel + 2)
          offset currentLimit retries).2[1]? =
          some (max 1 (currentLimit / 2), offset)) ∧
    (fetch 1 offset retries = none → retries + 2 ≤ maxRetries →
      (paginateGo fetch limit maxRetries true (fuel + 2) offset 1 retries).2[1]? =
          some (1, offset) ∧
      (paginateByIdGo fetch idOf limit maxRetries true (fuel + 2)
          offset 1 retries).2[1]? =
          some (limit, offset + 1)) := by
  have hget : ∀ (p : ℕ × ℕ) (t : List (ℕ × ℕ)) (q : ℕ × ℕ),
      t.head? = some q → (p :: t)[1]? = some q := by
    intro p t q hq
    cases t with
    | nil => simp at hq
    | cons x rest =>
      simp only [List.head?_cons, Option.some.injEq] at hq
      simp [hq]
  constructor
  · intro h hmax hcl
    have hnotmax : ¬ maxRetries ≤ retries + 1 := by omega
    constructor
    · rw [paginateGo, h]
      dsimp only
      rw [if_neg hnotmax, if_pos (show true = true ∧ 1 < currentLimit from ⟨rfl, hcl⟩)]
      exact hget _ _ _ (paginateGo_trace_head fetch limit maxRetries true fuel
        offset (max 1 (currentLimit / 2)) (retries + 1))
    · rw [paginateByIdGo, h]
      dsimp only
      rw [if_neg hnotmax, if_pos (show true = true ∧ 1 < currentLimit from ⟨rfl, hcl⟩)]
      exact hget _ _ _ (paginateByIdGo_trace_head fetch idOf limit maxRetries true fuel
        offset (max 1 (currentLimit / 2)) (retries + 1))
  · intro h hmax
    have hnotmax : ¬ maxRetries ≤ retries + 1 := by omega
    have hnotred : ¬ (true = true ∧ 1 < 1) := by simp
    constructor
    · rw [paginateGo, h]
      dsimp only
      rw [if_neg hnotmax, if_neg hnotred]
      exact hget _ _ _ (paginateGo_trace_head fetch limit maxRetries true fuel
        offset 1 (retries + 1))
    · rw [paginateByIdGo, h]
      dsimp only
      rw [if_neg hnotmax, if_neg hnotred]
      exact hget _ _ _ (paginateByIdGo_trace_head fetch idOf limit maxRetries true fuel
        (offset + 1) limit (retries + 1))

theorem adaptive_failure_handling_witness :
    ((paginateGo (fun _ _ _ => none : ℕ → ℕ → ℕ → Option (List ℕ))
        4 5 true 9 0 4 0).2[1]? = some (2, 0) ∧
      (paginateByIdGo (fun _ _ _ => none : ℕ → ℕ → ℕ → Option (List ℕ)) id
        4 5 true 9 0 4 0).2[1]? = some (2, 0)) ∧
    ((paginateGo (fun _ _ _ => none : ℕ → ℕ → ℕ → Option (List ℕ))
        4 5 true 9 0 1 0).2[1]? = some (1, 0) ∧
      (paginateByIdGo (fun _ _ _ => none : ℕ → ℕ → ℕ → Option (List ℕ)) id
        4 5 true 9 0 1 0).2[1]? = some (4, 1)) :=
  ⟨(adaptive_failure_handling (fun _ _ _ => none) id 4 5 7 0 4 0).1
      rfl (by norm_num) (by norm_num),
    (adaptive_failure_handling (fun _ _ _ => none) id 4 5 7 0 1 0).2
      rfl (by norm_num)⟩

theorem take_append_drop_min (t : List α) (k : ℕ) :
    t.take k ++ t.drop (min k t.length) = t := by
  induction t generalizing k with
  | nil => simp
  | cons x xs ih =>
    cases k with
    | zero => simp
    | succ k =>
      simp only [List.take_succ_cons, List.length_cons, List.cons_append]
      rw [Nat.succ_min_succ, List.drop_succ_cons, ih k]

theorem collectPages_none (pages : List (List α)) :
    ∀ acc, collectPages none pages acc = acc ++ pages.flatten := by
  induction pages with
  | nil => intro acc; simp [collectPages]
  | cons page rest ih =>
    intro acc
    rw [collectPages, ih]
    simp

/-- A synthetic deterministic backing store of `store` records, served from a
given offset in pages of at most `P` records (capped by the requested limit),
with transient failures injected at fixed cursors: the fetch at cursor `c`
fails on its first `failCount c` consecutive attempts and succeeds afterwards. -/
def storeFetch (store : List α) (P : ℕ) (failCount : ℕ → ℕ) :
    ℕ → ℕ → ℕ → Option (List α) :=
  fun limitArg offset retries =>
    if retries < failCount offset then none
    else some ((store.drop offset).take (min limitArg P))

/-- Completeness of the offset paginator over the synthetic store: from any
state whose retry counter is consistent with the injected failures, with every
cursor's failure count below the retry maximum and enough fuel, the run
succeeds and the yielded pages flatten to exactly the remaining records, in
order. -/
theorem paginateGo_store_complete (store : List α) (P limit maxRetries : ℕ)
    (failCount : ℕ → ℕ) (hP : 1 ≤ P) (hlimit : 1 ≤ limit)
    (hfail : ∀ c, failCount c < maxRetries) :
    ∀ fuel offset currentLimit retries, 1 ≤ currentLimit →
      retries ≤ failCount offset →
      (store.length - offset + 1) * maxRetries + (failCount offset - retries) + 1 ≤ fuel →
      ∃ pages, (paginateGo (storeFetch store P failCount) limit maxRetries true
          fuel offset currentLimit retries).1 = some pages ∧
        pages.flatten = store.drop offset := by
  intro fuel
  induction fuel with
  | zero =>
    intro offset currentLimit retries _ _ hfuel
    omega
  | succ fuel ih =>
    intro offset currentLimit retries hc hr hfuel
    rw [paginateGo]
    by_cases hf : retries < failCount offset
    · -- injected transient failure at this cursor
      have hfetch : storeFetch store P failCount currentLimit offset retries = none := by
        simp [storeFetch, hf]
      rw [hfetch]
      dsimp only
      have hnotmax : ¬ maxRetries ≤ retries + 1 := by
        have := hfail offset
        omega
      rw [if_neg hnotmax]
      have hfuel' : (store.length - offset + 1) * maxRetries +
          (failCount offset - (retries + 1)) + 1 ≤ fuel := by
        set K := (store.length - offset + 1) * maxRetries with hK
        omega
      by_cases hcl : 1 < currentLimit
      · rw [if_pos (show true = true ∧ 1 < currentLimit from ⟨rfl, hcl⟩)]
        obtain ⟨pages, h1, h2⟩ := ih offset (max 1 (currentLimit / 2)) (retries + 1)
          (le_max_left 1 _) hf hfuel'
        exact ⟨pages, h1, h2⟩
      · rw [if_neg (show ¬ (true = true ∧ 1 < currentLimit) from fun h => hcl h.2)]
        obtain ⟨pages, h1, h2⟩ := ih offset currentLimit (retries + 1) hc hf hfuel'
        exact ⟨pages, h1, h2⟩
    · -- successful fetch
      push_neg at hf
      have hfetch : storeFetch store P failCount currentLimit offset retries =
          some ((store.drop offset).take (min currentLimit P)) := by
        simp [storeFetch]
        omega
      rw [hfetch]
      dsimp only
      by_cases hoff : store.length ≤ offset
      · have hdrop : store.drop offset = [] := List.drop_eq_nil_of_le hoff
        rw [hdrop]
        simp only [List.take_nil]
        exact ⟨[], by simp, by simp⟩
      · push_neg at hoff
        set page := (store.drop offset).take (min currentLimit P) with hpage
        have hplen : page.length = min (min currentLimit P) (store.length - offset) := by
          rw [hpage, List.length_take, List.length_drop]
        have hppos : 0 < page.length := by
          rw [hplen]
          have h1' : 1 ≤ min currentLimit P := le_min hc hP
          omega
        have hne : page.isEmpty = false := by
          cases hp : page with
          | nil => rw [hp] at hppos; simp at hppos
          | cons a l => rfl
        rw [if_neg (by rw [hne]; exact Bool.false_ne_true)]
        have hlen_le : page.length ≤ store.length - offset := by
          rw [hplen]
          omega
        have hfuel' : (store.length - (offset + page.length) + 1) * maxRetries +
            (failCount (offset + page.length) - 0) + 1 ≤ fuel := by
          have h1' : store.length - (offset + page.length) + 1 ≤ store.length - offset := by
            omega
          have h2' := Nat.mul_le_mul_right maxRetries h1'
          have h3' : (store.length - offset + 1) * maxRetries =
              (store.length - offset) * maxRetries + maxRetries := by ring
          have h4' := hfail (offset + page.length)
          set p1 := (store.length - (offset + page.length) + 1) * maxRetries with hp1
          set p2 := (store.length - offset) * maxRetries with hp2
          set p3 := (store.length - offset + 1) * maxRetries with hp3
          omega
        obtain ⟨pages, h1, h2⟩ := ih (offset + page.length) limit 0 hlimit
          (Nat.zero_le _) hfuel'
        refine ⟨page :: pages, ?_, ?_⟩
        · rw [h1]
          rfl
        · rw [List.flatten_cons, h2]
          have hdd : store.drop (offset + page.length) =
              (store.drop offset).drop page.length := by
            rw [List.drop_drop, Nat.add_comm]
          rw [hdd, hplen]
          have hmin : min (min currentLimit P) (store.length - offset) =
              min (min currentLimit P) (store.drop offset).length := by
            rw [List.length_drop]
          rw [hmin, hpage]
          exact take_append_drop_min (store.drop offset) (min currentLimit P)

/-- Claim C2: draining a synthetic backing store of `N ≤ 500` records served
in pages of size `P ∈ [1, 100]` through `collect_paginated` (which runs
`paginate` with its defaults `max_retries = 3`, `reduce_limit_on_error=True`),
with transient failures injected at fixed cursors, fewer than the retry
maximum consecutively at any one cursor, returns exactly the `N` records, each
exactly once, in the store's original order. -/
theorem collect_paginated_drain_complete (store : List α) (P limit : ℕ)
    (failCount : ℕ → ℕ) (fuel : ℕ)
    (hN : store.length ≤ 500) (hP1 : 1 ≤ P) (_hP2 : P ≤ 100) (hlimit : 1 ≤ limit)
    (hfail : ∀ c, failCount c < 3)
    (hfuel : (store.length + 1) * 3 + 4 ≤ fuel) :
    collect_paginated (storeFetch store P failCount) limit 0 none fuel = some store := by
  obtain ⟨pages, h1, h2⟩ := paginateGo_store_complete store P limit 3 failCount hP1 hlimit
    hfail fuel 0 limit 0 hlimit (Nat.zero_le _)
    (by
      have := hfail 0
      omega)
  unfold collect_paginated paginate
  rw [h1]
  rw [Option.map_some']
  rw [collectPages_none pages []]
  rw [List.nil_append, h2, List.drop_zero]

theorem collect_paginated_drain_complete_witness :
    collect_paginated
        (storeFetch ([3, 1, 4, 1, 5] : List ℕ) 2 (fun c => if c = 2 then 2 else 0))
        2 0 none 30 = some [3, 1, 4, 1, 5] :=
  collect_paginated_drain_complete [3, 1, 4, 1, 5] 2 2
    (fun c => if c = 2 then 2 else 0) 30
    (by norm_num) (by norm_num) (by norm_num) (by norm_num)
    (fun c => by by_cases h : c = 2 <;> simp [h])
    (by norm_num)

/-- ASCII lowercasing of one character, the effect of Python `str.lower()` on
the hex address strings this library handles. -/
def charToLower (c : Char) : Char :=
  if 65 ≤ c.toNat ∧ c.toNat ≤ 90 then Char.ofNat (c.toNat + 32) else c

/-- Python `token_address.lower()` (addresses are ASCII). -/
def lowerAscii (s : String) : String :=
  String.mk (s.data.map charToLower)

/-! ## `sugar/services/price_provider.py`: the composite `PriceProvider`

Each underlying price source is abstracted as a pure query
`String → Option ℚ` (its own internal state is modelled separately for the
oracle source below); `none` models both "source returns None" and a source
whose internal failures already degraded to None — the resolver only observes
`get_price_usd` returning a price or not. -/

structure PriceResult where
  price : ℚ
  source : String
  timestamp : ℤ
deriving DecidableEq, Repr

structure PriceNotAvailableError where
  tokenAddress : String
  sourcesTried : List String
deriving DecidableEq, Repr

structure PriceProvider where
  oracle : Option (String → Option ℚ)
  coingecko : Option (String → Option ℚ)
  defillama : Option (String → Option ℚ)
  cache : List (String × PriceResult)
  cacheTtl : ℤ

/-- The outcome of one `PriceProvider.get_price_usd` call: the returned value
(or raised `PriceNotAvailableError`), the provider cache afterwards, and the
`sources_tried` list (a source's name is appended exactly when that source is
invoked). -/
structure ResolveOutcome where
  result : Except PriceNotAvailableError (Option PriceResult)
  cache : List (String × PriceResult)
  sourcesTried : List String

/-- The three sequential `if self._source:` blocks of `get_price_usd`,
expressed as a walk over the ordered source slots. -/
def trySources (token : String) (now : ℤ) :
    List (String × Option (String → Option ℚ)) → List String →
      Option PriceResult × List String
  | [], tried => (none, tried)
  | (_, none) :: rest, tried => trySources token now rest tried
  | (name, some f) :: rest, tried =>
    match f token with
    | some price => (some ⟨price, name, now⟩, tried ++ [name])
    | none => trySources token now rest (tried ++ [name])

/-- The fixed priority order of the source slots: oracle, then CoinGecko,
then DefiLlama. -/
def PriceProvider.orderedSources (p : PriceProvider) :
    List (String × Option (String → Option ℚ)) :=
  [(("oracle" : String), p.oracle), (("coingecko" : String), p.coingecko),
    (("defillama" : String), p.defillama)]

/-- `PriceProvider.get_price_usd(token_address, raise_on_failure)`. -/
def PriceProvider.get_price_usd (p : PriceProvider) (token : String) (now : ℤ)
    (raiseOnFailure : Bool) : ResolveOutcome :=
  let cacheKey := lowerAscii token
  let resolved :=
    match trySources token now p.orderedSources [] with
    | (some r, tried) => ResolveOutcome.mk (.ok (some r)) ((cacheKey, r) :: p.cache) tried
    | (none, tried) =>
      if raiseOnFailure then ResolveOutcome.mk (.error ⟨token, tried⟩) p.cache tried
      else ResolveOutcome.mk (.ok none) p.cache tried
  match p.cache.lookup cacheKey with
  | some cached =>
    if now - cached.timestamp < p.cacheTtl then ResolveOutcome.mk (.ok (some cached)) p.cache []
    else resolved
  | none => resolved

/-- Modelled from the spec's resolver algorithm (the reference side of the
refinement claim C4): iterate the configured sources in fixed priority order
and return the first non-absent result, tagged with the source's name and the
resolution time. -/
def resolveSpec (token : String) (now : ℤ) :
    List (String × Option (String → Option ℚ)) → Option PriceResult
  | [] => none
  | (_, none) :: rest => resolveSpec token now rest
  | (name, some f) :: rest =>
    match f token with
    | some price => some ⟨price, name, now⟩
    | none => resolveSpec token now rest

/-- The names of the configured (non-`None`) sources, in priority order. -/
def configuredNames : List (String × Option (String → Option ℚ)) → List String
  | [] => []
  | (_, none) :: rest => configuredNames rest
  | (name, some _) :: rest => name :: configuredNames rest

theorem trySources_fst (token : String) (now : ℤ) :
    ∀ cfg tried, (trySources token now cfg tried).1 = resolveSpec token now cfg := by
  intro cfg
  induction cfg with
  | nil => intro tried; rfl
  | cons s rest ih =>
    intro tried
    rcases s with ⟨name, _ | f⟩
    · exact ih tried
    · rw [trySources, resolveSpec]
      cases f token
      · exact ih (tried ++ [name])
      · rfl

theorem trySources_snd_none (token : String) (now : ℤ) :
    ∀ cfg tried, resolveSpec token now cfg = none →
      (trySources token now cfg tried).2 = tried ++ configuredNames cfg := by
  intro cfg
  induction cfg with
  | nil => intro tried _; simp [trySources, configuredNames]
  | cons s rest ih =>
    intro tried hnone
    rcases s with ⟨name, _ | f⟩
    · rw [trySources, configuredNames]
      exact ih tried (by rw [resolveSpec] at hnone; exact hnone)
    · rw [trySources, configuredNames]
      rw [resolveSpec] at hnone
      cases hf : f token
      · rw [hf] at hnone
        rw [ih (tried ++ [name]) hnone]
        simp
      · rw [hf] at hnone
        simp at hnone

theorem trySources_timestamp (token : String) (now : ℤ) :
    ∀ cfg tried r, (trySources token now cfg tried).1 = some r →
      r.timestamp = now := by
  intro cfg
  induction cfg with
  | nil => intro tried r hr; simp [trySources] at hr
  | cons s rest ih =>
    intro tried r hr
    rcases s with ⟨name, _ | f⟩
    · exact ih tried r hr
    · rw [trySources] at hr
      cases hf : f token
      · rw [hf] at hr
        exact ih (tried ++ [name]) r hr
      · rw [hf] at hr
        simp only [Option.some.injEq] at hr
        rw [← hr]

theorem trySources_hit_snd (token : String) (now : ℤ) :
    ∀ cfg tried r, (trySources token now cfg tried).1 = some r →
      ∃ name extra, (trySources token now cfg tried).2 = tried ++ name :: extra := by
  intro cfg
  induction cfg with
  | nil => intro tried r hr; simp [trySources] at hr
  | cons s rest ih =>
    intro tried r hr
    rcases s with ⟨name, _ | f⟩
    · exact ih tried r hr
    · rw [trySources] at hr ⊢
      cases hf : f token
      · rw [hf] at hr
        obtain ⟨name', extra, hx⟩ := ih (tried ++ [name]) r hr
        refine ⟨name, name' :: extra, ?_⟩
        show (trySources token now rest (tried ++ [name])).2 = tried ++ name :: name' :: extra
        rw [hx]
        simp
      · exact ⟨name, [], rfl⟩

theorem trySources_snd_append (token : String) (now : ℤ) :
    ∀ cfg tried, ∃ extra, (trySources token now cfg tried).2 = tried ++ extra := by
  intro cfg
  induction cfg with
  | nil => intro tried; exact ⟨[], by simp [trySources]⟩
  | cons s rest ih =>
    intro tried
    rcases s with ⟨name, _ | f⟩
    · exact ih tried
    · rw [trySources]
      cases hf : f token
      · obtain ⟨extra, hx⟩ := ih (tried ++ [name])
        exact ⟨name :: extra, by rw [hx]; simp⟩
      · exact ⟨[name], rfl⟩

/-- When the resolver cache has no fresh entry for the token, `get_price_usd`
falls through to the source walk. -/
theorem get_price_usd_of_stale (p : PriceProvider) (token : String) (now : ℤ)
    (raiseOnFailure : Bool)
    (hstale : ∀ c, p.cache.lookup (lowerAscii token) = some c →
      p.cacheTtl ≤ now - c.timestamp) :
    p.get_price_usd token now raiseOnFailure =
      match trySources token now p.orderedSources [] with
      | (some r, tried) =>
        ResolveOutcome.mk (.ok (some r)) (((lowerAscii token), r) :: p.cache) tried
      | (none, tried) =>
        if raiseOnFailure then ResolveOutcome.mk (.error ⟨token, tried⟩) p.cache tried
        else ResolveOutcome.mk (.ok none) p.cache tried := by
  unfold PriceProvider.get_price_usd
  dsimp only
  cases hl : p.cache.lookup (lowerAscii token) with
  | none => rfl
  | some cached =>
    dsimp only
    rw [if_neg (not_lt.mpr (hstale cached hl))]

/-- A fresh cache entry is served directly, with no source invoked. -/
theorem get_price_usd_fresh_hit (p : PriceProvider) (token : String) (now : ℤ)
    (raiseOnFailure : Bool) (c : PriceResult)
    (hl : p.cache.lookup (lowerAscii token) = some c)
    (hfresh : now - c.timestamp < p.cacheTtl) :
    p.get_price_usd token now raiseOnFailure =
      ResolveOutcome.mk (.ok (some c)) p.cache [] := by
  unfold PriceProvider.get_price_usd
  dsimp only
  rw [hl]
  dsimp only
  rw [if_pos hfresh]

/-- A successful resolution that invoked at least one source wrote its result
through to the resolver cache, timestamped with the resolution time. -/
theorem get_price_usd_writeback (p : PriceProvider) (token : String) (now : ℤ)
    (r : PriceResult)
    (hres : (p.get_price_usd token now false).result = .ok (some r))
    (htried : (p.get_price_usd token now false).sourcesTried ≠ []) :
    (p.get_price_usd token now false).cache = ((lowerAscii token), r) :: p.cache ∧
      r.timestamp = now := by
  by_cases hcase : ∀ c, p.cache.lookup (lowerAscii token) = some c →
      p.cacheTtl ≤ now - c.timestamp
  · rw [get_price_usd_of_stale p token now false hcase] at hres htried ⊢
    rcases hts : trySources token now p.orderedSources [] with ⟨res, tried⟩
    rw [hts] at hres htried
    cases res with
    | none => simp at hres
    | some q =>
      dsimp only at hres ⊢
      simp only [Except.ok.injEq, Option.some.injEq] at hres
      subst hres
      refine ⟨rfl, ?_⟩
      exact trySources_timestamp token now p.orderedSources [] q (by rw [hts])
  · push_neg at hcase
    obtain ⟨c, hl, hfresh⟩ := hcase
    rw [get_price_usd_fresh_hit p token now false c hl (by omega)] at htried
    exact absurd rfl htried

/-- Claim C4: for a token without a fresh entry in the resolver cache,
`get_price_usd` queries the configured sources in the fixed order oracle,
CoinGecko, DefiLlama; it returns the first non-absent price tagged with that
source's name (`resolveSpec`, modelled from the spec's resolver algorithm) and
writes it through to the resolver cache; if every configured source returns
absent it returns absent, or, when `raise_on_failure` is set, raises a
`PriceNotAvailableError` listing every source attempted. -/
theorem resolver_priority_and_writeback (p : PriceProvider) (token : String)
    (now : ℤ) (raiseOnFailure : Bool)
    (hstale : ∀ c, p.cache.lookup (lowerAscii token) = some c →
      p.cacheTtl ≤ now - c.timestamp) :
    (∀ r, resolveSpec token now p.orderedSources = some r →
      (p.get_price_usd token now raiseOnFailure).result = .ok (some r) ∧
      (p.get_price_usd token now raiseOnFailure).cache.lookup (lowerAscii token) = some r) ∧
    (resolveSpec token now p.orderedSources = none →
      (p.get_price_usd token now raiseOnFailure).cache = p.cache ∧
      (p.get_price_usd token now raiseOnFailure).sourcesTried =
        configuredNames p.orderedSources ∧
      (raiseOnFailure = false →
        (p.get_price_usd token now raiseOnFailure).result = .ok none) ∧
      (raiseOnFailure = true →
        (p.get_price_usd token now raiseOnFailure).result =
          .error ⟨token, configuredNames p.orderedSources⟩)) := by
  rw [get_price_usd_of_stale p token now raiseOnFailure hstale]
  rcases hts : trySources token now p.orderedSources [] with ⟨res, tried⟩
  have hfst := trySources_fst token now p.orderedSources []
  rw [hts] at hfst
  constructor
  · intro r hr
    rw [hr] at hfst
    subst hfst
    refine ⟨rfl, ?_⟩
    simp [List.lookup]
  · intro hnone
    rw [hnone] at hfst
    subst hfst
    have htried : tried = configuredNames p.orderedSources := by
      have := trySources_snd_none token now p.orderedSources [] hnone
      rw [hts] at this
      simpa using this
    cases raiseOnFailure
    · exact ⟨rfl, htried, fun _ => rfl, fun h => by simp at h⟩
    · refine ⟨rfl, htried, fun h => by simp at h, fun _ => ?_⟩
      rw [htried]
      rfl

theorem resolver_priority_witness :
    ((PriceProvider.mk (some fun _ => none) (some fun _ => some 5)
        (some fun _ => some 7) [] 60).get_price_usd ("0xtok") 100 false).result =
      .ok (some (PriceResult.mk 5 ("coingecko") 100)) :=
  ((resolver_priority_and_writeback
      (PriceProvider.mk (some fun _ => none) (some fun _ => some 5)
        (some fun _ => some 7) [] 60)
      ("0xtok") 100 false (fun c hc => by simp [List.lookup] at hc)).1
    (PriceResult.mk 5 ("coingecko") 100) rfl).1

/-- Claim C6: resolver cache TTL discipline.  Part (a): a fresh cache entry
(age < TTL) is served directly with no source invoked; part (a'): conversely,
every price served with no source invoked is a cache entry satisfying
age < TTL at the moment it is served.  Part (b): after a resolution that
invoked the sources, a second call for the same token within the TTL window is
served from the cache with no source invocation (so the two calls hit the
underlying sources exactly once).  Part (c): a call made after the cached
entry's TTL has expired invokes the sources again. -/
theorem resolver_cache_ttl (p : PriceProvider) (token : String)
    (now now₂ now₃ : ℤ) (r : PriceResult) :
    (p.cache.lookup (lowerAscii token) = some r → now - r.timestamp < p.cacheTtl →
      p.get_price_usd token now false = ResolveOutcome.mk (.ok (some r)) p.cache []) ∧
    ((p.get_price_usd token now false).sourcesTried = [] →
      (p.get_price_usd token now false).result = .ok (some r) →
      p.cache.lookup (lowerAscii token) = some r ∧ now - r.timestamp < p.cacheTtl) ∧
    ((p.get_price_usd token now false).result = .ok (some r) →
      (p.get_price_usd token now false).sourcesTried ≠ [] →
      now₂ - now < p.cacheTtl →
      (PriceProvider.mk p.oracle p.coingecko p.defillama
          (p.get_price_usd token now false).cache p.cacheTtl).get_price_usd
          token now₂ false =
        ResolveOutcome.mk (.ok (some r)) (p.get_price_usd token now false).cache []) ∧
    ((p.get_price_usd token now false).result = .ok (some r) →
      (p.get_price_usd token now false).sourcesTried ≠ [] →
      p.cacheTtl ≤ now₃ - now → p.oracle.isSome →
      ((PriceProvider.mk p.oracle p.coingecko p.defillama
          (p.get_price_usd token now false).cache p.cacheTtl).get_price_usd
          token now₃ false).sourcesTried ≠ []) := by
  refine ⟨?_, ?_, ?_, ?_⟩
  · intro hl hfresh
    exact get_price_usd_fresh_hit p token now false r hl hfresh
  · intro hsrc hres
    by_cases hcase : ∀ c, p.cache.lookup (lowerAscii token) = some c →
        p.cacheTtl ≤ now - c.timestamp
    · exfalso
      rw [get_price_usd_of_stale p token now false hcase] at hsrc hres
      rcases hts : trySources token now p.orderedSources [] with ⟨res, tried⟩
      rw [hts] at hsrc hres
      cases res with
      | none => simp at hres
      | some q =>
        dsimp only at hsrc
        obtain ⟨name, extra, hx⟩ :=
          trySources_hit_snd token now p.orderedSources [] q (by rw [hts])
        rw [hts] at hx
        dsimp only at hx
        rw [hsrc] at hx
        simp at hx
    · push_neg at hcase
      obtain ⟨c, hl, hfresh⟩ := hcase
      have hfresh' : now - c.timestamp < p.cacheTtl := by omega
      rw [get_price_usd_fresh_hit p token now false c hl hfresh'] at hres
      simp only [Except.ok.injEq, Option.some.injEq] at hres
      subst hres
      exact ⟨hl, hfresh'⟩
  · intro hres htried hwin
    obtain ⟨hcache, hts⟩ := get_price_usd_writeback p token now r hres htried
    rw [hcache]
    apply get_price_usd_fresh_hit
    · simp [List.lookup]
    · rw [hts]
      exact hwin
  · intro hres htried hexp horacle
    obtain ⟨hcache, htime⟩ := get_price_usd_writeback p token now r hres htried
    set p' := PriceProvider.mk p.oracle p.coingecko p.defillama
      (p.get_price_usd token now false).cache p.cacheTtl with hp'
    have hstale' : ∀ c, p'.cache.lookup (lowerAscii token) = some c →
        p'.cacheTtl ≤ now₃ - c.timestamp := by
      intro c hc
      rw [hp'] at hc
      simp only at hc
      rw [hcache] at hc
      simp [List.lookup] at hc
      rw [← hc, htime]
      exact hexp
    rw [get_price_usd_of_stale p' token now₃ false hstale']
    rcases ho : p.oracle with _ | f
    · rw [ho] at horacle
      simp at horacle
    · have hsrcs : p'.orderedSources =
          (("oracle" : String), some f) :: [(("coingecko" : String), p.coingecko),
            (("defillama" : String), p.defillama)] := by
        rw [hp', PriceProvider.orderedSources, ho]
      rw [hsrcs]
      rw [trySources]
      cases hf : f token
      · obtain ⟨extra, hx⟩ := trySources_snd_append token now₃
          [(("coingecko" : String), p.coingecko), (("defillama" : String), p.defillama)]
          ([] ++ [("oracle" : String)])
        rcases hts₃ : trySources token now₃
            [(("coingecko" : String), p.coingecko),
              (("defillama" : String), p.defillama)] ([] ++ [("oracle" : String)])
          with ⟨res₃, tried₃⟩
        rw [hts₃] at hx
        dsimp only at hx
        cases res₃ <;> simp [hx]
      · simp

theorem resolver_cache_ttl_witness :
    ((PriceProvider.mk (some fun _ => some (5 : ℚ)) none none
        [(("0xabc" : String), PriceResult.mk 5 ("oracle") 100)] 60).get_price_usd
        ("0xabc") 130 false =
      ResolveOutcome.mk (.ok (some (PriceResult.mk 5 ("oracle") 100)))
        [(("0xabc" : String), PriceResult.mk 5 ("oracle") 100)] []) ∧
    ((PriceProvider.mk (some fun _ => some (5 : ℚ)) none none
        ((PriceProvider.mk (some fun _ => some (5 : ℚ)) none none [] 60).get_price_usd
            ("0xabc") 100 false).cache 60).get_price_usd ("0xabc") 130 false =
      ResolveOutcome.mk (.ok (some (PriceResult.mk 5 ("oracle") 100)))
        ((PriceProvider.mk (some fun _ => some (5 : ℚ)) none none [] 60).get_price_usd
            ("0xabc") 100 false).cache []) ∧
    ((PriceProvider.mk (some fun _ => some (5 : ℚ)) none none
        ((PriceProvider.mk (some fun _ => some (5 : ℚ)) none none [] 60).get_price_usd
            ("0xabc") 100 false).cache 60).get_price_usd ("0xabc") 200
        false).sourcesTried ≠ [] :=
  ⟨(resolver_cache_ttl
      (PriceProvider.mk (some fun _ => some (5 : ℚ)) none none
        [(("0xabc" : String), PriceResult.mk 5 ("oracle") 100)] 60)
      ("0xabc") 130 0 0 (PriceResult.mk 5 ("oracle") 100)).1
      (by decide) (by decide),
    (resolver_cache_ttl
      (PriceProvider.mk (some fun _ => some (5 : ℚ)) none none [] 60)
      ("0xabc") 100 130 0 (PriceResult.mk 5 ("oracle") 100)).2.2.1
      rfl (by decide) (by decide),
    (resolver_cache_ttl
      (PriceProvider.mk (some fun _ => some (5 : ℚ)) none none [] 60)
      ("0xabc") 100 0 200 (PriceResult.mk 5 ("oracle") 100)).2.2.2
      rfl (by decide) (by decide) rfl⟩

/-! ## `sugar/services/price_provider.py`: `OraclePriceSource`

The remote batch query `self._oracle.get_many_rates_to_eth(...)` is modelled
as a deterministic-per-sweep function `getManyRates : List String → Option
(List ℚ)` (`none` models a raised exception).  The optional tokens DataFrame
decimals lookup is modelled as `tokensDecimals : String → Option ℕ`.  Each
state-passing function additionally returns the list of remote query batches
it issued. -/

/-- `ORACLE_BATCH_SIZE`. -/
def ORACLE_BATCH_SIZE : ℕ := 15

/-- `OraclePriceSource.WETH_ADDRESS`. -/
def WETH_ADDRESS : String := "0x4200000000000000000000000000000000000006"

/-- `OraclePriceSource.STABLECOINS` (already normalized to lowercase). -/
def STABLECOINS : List String :=
  ["0x833589fcd6edb6e08f4c7c32d4f71b54bda02913",
   "0xd9aaec86b65d86f6a7b5b1b0c42ffa531710b6ca",
   "0xb79dd08ea68a908a97220c76d19a6aa9cbde4376",
   "0xcfa3ef56d303ae4faaba0592388f19d7c3399fb4",
   "0x4621b7a9c75199271f773ebd9a499dbd165c3191",
   "0x50c5725949a6f0c72e6c4a641f24049a917db0cb",
   "0x0b2c639c533813f4aa9d7837caf62653d097ff85",
   "0x94b008aa00579c1307b0ef2c499ad98a8ce58e58",
   "0x2e3d870790dc77a83dd1d18184acc7439a53f475",
   "0x73cb180bf0521828d8849bc8cf2b920918e23032",
   "0xda10009cbd5d07dd0cecc66161fc93d7c9000da1",
   "0xbfd291da8a403daaf7e5e9dc1ec0aceacd4848b9",
   "0x8c6f28f2f1a3c87f0f938b96d27520d9751ec8d9",
   "0xc40f949f8a4e094d1b49a23ea9241d289b7b2819",
   "0x1217bfe6c773eec6cc4a38b5dc45b92292b6e189",
   "0x43f2376d5d03553ae72f4a8093bbe9de4336eb08",
   "0xba9986d2381edf1da03b0b9c1f8b00dc4aacc369",
   "0x078d782b760474a361dda0af3839290b0ef57ad6",
   "0x51e85d70944256710cb141847f1a04f568c1db0e",
   "0x5d3a1ff2b6bab83b63cd9ad0787074081a52ef34",
   "0xfc00000000000000000000000000000000000001",
   "0xdcc0f2d8f90fde85b10ac1c8ab57dc0ae946a543",
   "0x48065fbbe25f71c9282ddf5e1cd6d6a887483d5e",
   "0x0200c29006150606b650577bbe7b6248f58470c1"]

/-- `OraclePriceSource.KNOWN_DECIMALS` (lowercase address to decimals). -/
def KNOWN_DECIMALS : List (String × ℕ) :=
  [("0x833589fcd6edb6e08f4c7c32d4f71b54bda02913", 6),
   ("0xd9aaec86b65d86f6a7b5b1b0c42ffa531710b6ca", 6),
   ("0x0b2c639c533813f4aa9d7837caf62653d097ff85", 6),
   ("0x94b008aa00579c1307b0ef2c499ad98a8ce58e58", 6),
   ("0x60a3e35cc302bfa44cb288bc5a4f316fdb1adb42", 6),
   ("0xba9986d2381edf1da03b0b9c1f8b00dc4aacc369", 6),
   ("0x078d782b760474a361dda0af3839290b0ef57ad6", 6),
   ("0x51e85d70944256710cb141847f1a04f568c1db0e", 6),
   ("0xdcc0f2d8f90fde85b10ac1c8ab57dc0ae946a543", 6),
   ("0x1217bfe6c773eec6cc4a38b5dc45b92292b6e189", 6),
   ("0x43f2376d5d03553ae72f4a8093bbe9de4336eb08", 6),
   ("0x48065fbbe25f71c9282ddf5e1cd6d6a887483d5e", 6),
   ("0x0200c29006150606b650577bbe7b6248f58470c1", 6),
   ("0xcbb7c0000ab88b473b1f5afd9ef808440eed33bf", 8),
   ("0x03c7054bcb39f7b2e5b2c7acb37583e32d70cfa3", 8),
   ("0x6f36dbd829de9b7e077db8a35b480d4329ceb331", 8),
   ("0x6c84a8f1c29108f47a79964b5fe888d4f4d0de40", 8),
   ("0x73e0c0d45e048d25fc26fa3159b0aa04bfa4db98", 8)]

structure OracleSource where
  connectors : List String
  getManyRates : List String → Option (List ℚ)
  tokensDecimals : String → Option ℕ
  ethPriceCache : List (String × ℚ)
  ethUsdRate : Option ℚ
  ethUsdTimestamp : ℤ
  ethUsdTtl : ℤ

/-- `OraclePriceSource._is_stablecoin`. -/
def isStablecoin (tokenAddress : String) : Bool :=
  STABLECOINS.contains (lowerAscii tokenAddress)

/-- `OraclePriceSource._get_token_decimals`: known decimals, then the tokens
DataFrame, defaulting to 18. -/
def getTokenDecimals (src : OracleSource) (tokenAddress : String) : ℕ :=
  match KNOWN_DECIMALS.lookup (lowerAscii tokenAddress) with
  | some d => d
  | none =>
    match src.tokensDecimals tokenAddress with
    | some d => d
    | none => 18

/-- `OraclePriceSource._adjust_rate_for_decimals`: multiply the raw rate by
`10 ^ (D - 18)` for a `D`-decimal token (the multiplication only shifts the
decimal exponent, hence exact). -/
def adjustRateForDecimals (src : OracleSource) (rate : ℚ) (tokenAddress : String) : ℚ :=
  let decimals := getTokenDecimals src tokenAddress
  if decimals = 18 then rate
  else rate * 10 ^ ((decimals : ℤ) - 18)

/-- The uncached tail of `_get_eth_usd_rate`: query the first connector
(stablecoin) and fall back to the hard-coded `Decimal(3000)` when there is no
connector, the query raises, or the rate is empty or non-positive.  The
fallback paths return without writing the rate cache. -/
def OracleSource.ethUsdRateQuery (src : OracleSource) (now : ℤ) :
    ℚ × OracleSource × List (List String) :=
  match src.connectors with
  | [] => (3000, src, [])
  | stablecoin :: _ =>
    match src.getManyRates [stablecoin] with
    | none => (3000, src, [[stablecoin]])
    | some rates =>
      match rates with
      | [] => (3000, src, [[stablecoin]])
      | r0 :: _ =>
        if 0 < r0 then
          let adjustedRate := adjustRateForDecimals src r0 stablecoin
          let rate := decRound (1 / adjustedRate)
          (rate, { src with ethUsdRate := some rate, ethUsdTimestamp := now },
            [[stablecoin]])
        else (3000, src, [[stablecoin]])

/-- `OraclePriceSource._get_eth_usd_rate` (with its own short TTL cache). -/
def OracleSource.getEthUsdRate (src : OracleSource) (now : ℤ) :
    ℚ × OracleSource × List (List String) :=
  match src.ethUsdRate with
  | some cachedRate =>
    if now - src.ethUsdTimestamp < src.ethUsdTtl then (cachedRate, src, [])
    else src.ethUsdRateQuery now
  | none => src.ethUsdRateQuery now

/-- `OraclePriceSource.get_price_usd`. -/
def OracleSource.get_price_usd (src : OracleSource) (tokenAddress : String)
    (now : ℤ) : Option ℚ × OracleSource × List (List String) :=
  let tokenLower := lowerAscii tokenAddress
  if isStablecoin tokenAddress then (some 1, src, [])
  else if tokenLower = lowerAscii WETH_ADDRESS then
    let res := src.getEthUsdRate now
    (some res.1, res.2.1, res.2.2)
  else
    match src.ethPriceCache.lookup tokenLower with
    | some ethPrice =>
      if 0 < ethPrice then
        let res := src.getEthUsdRate now
        (some (ethPrice * res.1), res.2.1, res.2.2)
      else (none, src, [])
    | none =>
      match src.getManyRates [tokenAddress] with
      | none => (none, src, [[tokenAddress]])
      | some rates =>
        match rates with
        | [] => (none, src, [[tokenAddress]])
        | r0 :: _ =>
          if 0 < r0 then
            let adjustedRate := adjustRateForDecimals src r0 tokenAddress
            let src1 := { src with
              ethPriceCache := (tokenLower, adjustedRate) :: src.ethPriceCache }
            let res := src1.getEthUsdRate now
            (some (adjustedRate * res.1), res.2.1, [tokenAddress] :: res.2.2)
          else (none, src, [[tokenAddress]])

/-- Split a list into consecutive chunks of `n` (fuel-indexed for structural
recursion; `chunks` supplies `l.length` fuel, always enough for `n ≥ 1`). -/
def chunksGo (n : ℕ) : ℕ → List α → List (List α)
  | 0, _ => []
  | _ + 1, [] => []
  | fuel + 1, x :: xs => (x :: xs).take n :: chunksGo n fuel ((x :: xs).drop n)

/-- `range(0, len(tokens_to_fetch), ORACLE_BATCH_SIZE)` slicing. -/
def chunks (n : ℕ) (l : List α) : List (List α) :=
  chunksGo n l.length l

/-- One iteration of the prefetch batch loop: cache the decimal-adjusted rates
on success; on an exception cache the `Decimal(0)` sentinel for every token of
the batch so they are not retried. -/
def prefetchBatch (src : OracleSource) (batch : List String) : OracleSource :=
  match src.getManyRates batch with
  | some rates =>
    let newCache := (batch.zip rates).foldl
      (fun cache p => ((lowerAscii p.1), adjustRateForDecimals src p.2 p.1) :: cache)
      src.ethPriceCache
    { src with ethPriceCache := newCache }
  | none =>
    let newCache := batch.foldl
      (fun cache addr => ((lowerAscii addr), (0 : ℚ)) :: cache)
      src.ethPriceCache
    { src with ethPriceCache := newCache }

/-- The prefetch filter: skip already-cached tokens, stablecoins and WETH. -/
def filterTokensToFetch (src : OracleSource) (tokenAddresses : List String) :
    List String :=
  tokenAddresses.filter fun addr =>
    (src.ethPriceCache.lookup (lowerAscii addr)).isNone &&
      !(isStablecoin addr) && ((lowerAscii addr) != lowerAscii WETH_ADDRESS)

/-- `OraclePriceSource.prefetch_prices`. -/
def OracleSource.prefetch_prices (src : OracleSource) (tokenAddresses : List String)
    (now : ℤ) : OracleSource × List (List String) :=
  let tokensToFetch := filterTokensToFetch src tokenAddresses
  if tokensToFetch.isEmpty then (src, [])
  else
    let res := src.getEthUsdRate now
    let batches := chunks ORACLE_BATCH_SIZE tokensToFetch
    (batches.foldl prefetchBatch res.2.1, res.2.2 ++ batches)

theorem chunksGo_flatten (n : ℕ) (hn : 1 ≤ n) :
    ∀ fuel (l : List α), l.length ≤ fuel → (chunksGo n fuel l).flatten = l := by
  intro fuel
  induction fuel with
  | zero =>
    intro l hl
    rw [Nat.le_zero] at hl
    rw [List.length_eq_zero] at hl
    subst hl
    rfl
  | succ fuel ih =>
    intro l hl
    cases l with
    | nil => rfl
    | cons x xs =>
      rw [chunksGo, List.flatten_cons]
      have hlen : ((x :: xs).drop n).length ≤ fuel := by
        rw [List.length_drop, List.length_cons]
        rw [List.length_cons] at hl
        omega
      rw [ih ((x :: xs).drop n) hlen]
      exact List.take_append_drop n (x :: xs)

theorem chunks_flatten (n : ℕ) (l : List α) (hn : 1 ≤ n) :
    (chunks n l).flatten = l :=
  chunksGo_flatten n hn l.length l le_rfl

theorem lookup_foldl_insert_not_mem {γ β : Type} (key : String)
    (keyOf : γ → String) (valOf : γ → β) :
    ∀ (items : List γ) (cache : List (String × β)),
      key ∉ items.map keyOf →
      ((items.foldl (fun c it => (keyOf it, valOf it) :: c) cache).lookup key) =
        cache.lookup key := by
  intro items
  induction items with
  | nil => intro cache _; rfl
  | cons it rest ih =>
    intro cache hk
    simp only [List.map_cons, List.mem_cons, not_or] at hk
    rw [List.foldl_cons, ih ((keyOf it, valOf it) :: cache) hk.2]
    have hbeq : (key == keyOf it) = false := beq_eq_false_iff_ne.mpr hk.1
    simp [List.lookup, hbeq]

theorem lookup_foldl_zero (key : String) :
    ∀ (items : List String) (cache : List (String × ℚ)),
      (key ∈ items.map lowerAscii ∨ cache.lookup key = some 0) →
      ((items.foldl (fun c addr => ((lowerAscii addr), (0 : ℚ)) :: c) cache).lookup key) =
        some 0 := by
  intro items
  induction items with
  | nil =>
    intro cache h
    rcases h with h | h
    · simp at h
    · exact h
  | cons addr rest ih =>
    intro cache h
    rw [List.foldl_cons]
    apply ih
    by_cases hk : key = lowerAscii addr
    · right
      simp [List.lookup, hk]
    · rcases h with h | h
      · simp only [List.map_cons, List.mem_cons] at h
        rcases h with h | h
        · exact absurd h hk
        · left
          exact h
      · right
        have hbeq : (key == lowerAscii addr) = false := beq_eq_false_iff_ne.mpr hk
        simp [List.lookup, hbeq]
        exact h

theorem prefetchBatch_getManyRates (src : OracleSource) (b : List String) :
    (prefetchBatch src b).getManyRates = src.getManyRates := by
  unfold prefetchBatch
  cases src.getManyRates b <;> rfl

theorem lookup_prefetchBatch_not_mem (src : OracleSource) (b : List String)
    (key : String) (hk : key ∉ b.map lowerAscii) :
    ((prefetchBatch src b).ethPriceCache).lookup key =
      src.ethPriceCache.lookup key := by
  unfold prefetchBatch
  cases hg : src.getManyRates b with
  | none =>
    dsimp only
    exact lookup_foldl_insert_not_mem key lowerAscii (fun _ => (0 : ℚ)) b
      src.ethPriceCache hk
  | some rates =>
    dsimp only
    apply lookup_foldl_insert_not_mem key (fun p => lowerAscii p.1)
      (fun p => adjustRateForDecimals src p.2 p.1) (b.zip rates) src.ethPriceCache
    intro hc
    obtain ⟨p, hp, hkey⟩ := List.mem_map.mp hc
    rcases p with ⟨a, q⟩
    exact hk (hkey ▸ List.mem_map_of_mem _ (List.of_mem_zip hp).1)

theorem foldl_prefetchBatch_lookup_not_mem :
    ∀ (batches : List (List String)) (src : OracleSource) (key : String),
      key ∉ (batches.flatten.map lowerAscii) →
      ((batches.foldl prefetchBatch src).ethPriceCache).lookup key =
        src.ethPriceCache.lookup key := by
  intro batches
  induction batches with
  | nil => intro src key _; rfl
  | cons b rest ih =>
    intro src key hk
    rw [List.flatten_cons, List.map_append] at hk
    simp only [List.mem_append, not_or] at hk
    rw [List.foldl_cons, ih (prefetchBatch src b) key hk.2]
    exact lookup_prefetchBatch_not_mem src b key hk.1

/-- After the prefetch batch loop, every token of a batch whose remote query
raised is cached with the `Decimal(0)` sentinel. -/
theorem foldl_prefetchBatch_sentinel :
    ∀ (batches : List (List String)) (src : OracleSource) (batch : List String)
      (addr : String),
      ((batches.flatten.map lowerAscii).Nodup) →
      batch ∈ batches → src.getManyRates batch = none → addr ∈ batch →
      ((batches.foldl prefetchBatch src).ethPriceCache).lookup (lowerAscii addr) =
        some 0 := by
  intro batches
  induction batches with
  | nil =>
    intro src batch addr _ hb
    simp at hb
  | cons b rest ih =>
    intro src batch addr hnodup hb hfail ha
    rw [List.flatten_cons, List.map_append] at hnodup
    rw [List.foldl_cons]
    rcases List.mem_cons.mp hb with hbb | hbr
    · subst hbb
      have hkey : lowerAscii addr ∉ (rest.flatten.map lowerAscii) := by
        have hdis := (List.nodup_append.mp hnodup).2.2
        intro hc
        exact hdis (List.mem_map_of_mem _ ha) hc
      rw [foldl_prefetchBatch_lookup_not_mem rest (prefetchBatch src batch) _ hkey]
      unfold prefetchBatch
      rw [hfail]
      dsimp only
      exact lookup_foldl_zero (lowerAscii addr) batch src.ethPriceCache
        (Or.inl (List.mem_map_of_mem _ ha))
    · apply ih (prefetchBatch src b) batch addr (List.nodup_append.mp hnodup).2.1 hbr
        ?_ ha
      rw [prefetchBatch_getManyRates]
      exact hfail

theorem ethUsdRateQuery_preserves (src : OracleSource) (now : ℤ) :
    (src.ethUsdRateQuery now).2.1.ethPriceCache = src.ethPriceCache ∧
      (src.ethUsdRateQuery now).2.1.getManyRates = src.getManyRates := by
  unfold OracleSource.ethUsdRateQuery
  cases hc : src.connectors with
  | nil => exact ⟨rfl, rfl⟩
  | cons c cs =>
    dsimp only
    cases hg : src.getManyRates [c] with
    | none => exact ⟨rfl, rfl⟩
    | some rates =>
      cases rates with
      | nil => exact ⟨rfl, rfl⟩
      | cons r0 rs =>
        by_cases h0 : 0 < r0
        · dsimp only
          rw [if_pos h0]
          exact ⟨rfl, rfl⟩
        · dsimp only
          rw [if_neg h0]
          exact ⟨rfl, rfl⟩

theorem getEthUsdRate_preserves (src : OracleSource) (now : ℤ) :
    (src.getEthUsdRate now).2.1.ethPriceCache = src.ethPriceCache ∧
      (src.getEthUsdRate now).2.1.getManyRates = src.getManyRates := by
  unfold OracleSource.getEthUsdRate
  cases hr : src.ethUsdRate with
  | none => exact ethUsdRateQuery_preserves src now
  | some cachedRate =>
    dsimp only
    by_cases hf : now - src.ethUsdTimestamp < src.ethUsdTtl
    · rw [if_pos hf]
      exact ⟨rfl, rfl⟩
    · rw [if_neg hf]
      exact ethUsdRateQuery_preserves src now

/-- Claim C8: when one batch query inside the oracle source's prefetch raises,
the exception is caught per-batch (`prefetch_prices` is a total function into
a new state — it never raises), every token of that batch is written into the
oracle's internal cache as the explicit `Decimal(0)` unknown sentinel, and a
subsequent `get_price_usd` of any such token returns absent from the oracle
source without issuing another remote query. -/
theorem oracle_failed_batch_sentinel (src : OracleSource) (tokens : List String)
    (now : ℤ) (batch : List String) (addr : String)
    (hnodup : ((filterTokensToFetch src tokens).map lowerAscii).Nodup)
    (hb : batch ∈ chunks ORACLE_BATCH_SIZE (filterTokensToFetch src tokens))
    (hfail : src.getManyRates batch = none)
    (ha : addr ∈ batch) :
    ((src.prefetch_prices tokens now).1.ethPriceCache.lookup (lowerAscii addr) =
      some 0) ∧
    ((src.prefetch_prices tokens now).1.get_price_usd addr now =
      (none, (src.prefetch_prices tokens now).1, [])) := by
  have hflat : (chunks ORACLE_BATCH_SIZE (filterTokensToFetch src tokens)).flatten =
      filterTokensToFetch src tokens :=
    chunks_flatten _ _ (by norm_num [ORACLE_BATCH_SIZE])
  have haddrF : addr ∈ filterTokensToFetch src tokens := by
    rw [← hflat]
    exact List.mem_flatten.mpr ⟨batch, hb, ha⟩
  have hne : (filterTokensToFetch src tokens).isEmpty = false := by
    cases htf0 : filterTokensToFetch src tokens with
    | nil => rw [htf0] at haddrF; simp at haddrF
    | cons x xs => rfl
  have hpre : (src.prefetch_prices tokens now).1 =
      (chunks ORACLE_BATCH_SIZE (filterTokensToFetch src tokens)).foldl prefetchBatch
        (src.getEthUsdRate now).2.1 := by
    unfold OracleSource.prefetch_prices
    dsimp only
    rw [if_neg (by rw [hne]; exact Bool.false_ne_true)]
  have hsent : (((chunks ORACLE_BATCH_SIZE (filterTokensToFetch src tokens)).foldl
      prefetchBatch (src.getEthUsdRate now).2.1).ethPriceCache).lookup
        (lowerAscii addr) = some 0 := by
    apply foldl_prefetchBatch_sentinel _ _ batch addr ?_ hb ?_ ha
    · rw [hflat]
      exact hnodup
    · rw [(getEthUsdRate_preserves src now).2]
      exact hfail
  have hmem := List.mem_filter.mp haddrF
  have hpred := hmem.2
  simp only [Bool.and_eq_true, Bool.not_eq_true', bne_iff_ne] at hpred
  have hstable : ¬ (isStablecoin addr = true) := by
    rw [hpred.1.2]
    exact Bool.false_ne_true
  refine ⟨by rw [hpre]; exact hsent, ?_⟩
  rw [hpre]
  unfold OracleSource.get_price_usd
  dsimp only
  rw [if_neg hstable, if_neg hpred.2, hsent]
  dsimp only
  rw [if_neg (lt_irrefl 0)]

theorem oracle_failed_batch_sentinel_witness :
    (((OracleSource.mk [] (fun _ => none) (fun _ => none) [] none 0 60).prefetch_prices
        [("0xbad")] 5).1.ethPriceCache.lookup (lowerAscii ("0xbad")) = some 0) ∧
    (((OracleSource.mk [] (fun _ => none) (fun _ => none) [] none 0 60).prefetch_prices
        [("0xbad")] 5).1.get_price_usd ("0xbad") 5 =
      (none, ((OracleSource.mk [] (fun _ => none) (fun _ => none) [] none 0
          60).prefetch_prices [("0xbad")] 5).1, [])) :=
  oracle_failed_batch_sentinel
    (OracleSource.mk [] (fun _ => none) (fun _ => none) [] none 0 60)
    [("0xbad")] 5 [("0xbad")] ("0xbad") (by decide) (by decide) rfl (by decide)

/-- Claim C10: whenever the oracle source's connector list is empty, or the
stablecoin-to-reference rate query raises or returns an empty or non-positive
rate, `_get_eth_usd_rate` returns the hard-coded `Decimal(3000)` without
caching it (the state is unchanged), so the WETH price and every
oracle-derived USD price of such a run are computed from an assumed $3000 per
reference asset instead of resolving to absent. -/
theorem oracle_eth_usd_fallback (src : OracleSource) (now : ℤ) (p : ℚ)
    (token : String)
    (hstale : ∀ r, src.ethUsdRate = some r →
      src.ethUsdTtl ≤ now - src.ethUsdTimestamp)
    (hdeg : src.connectors = [] ∨
      ∃ c cs, src.connectors = c :: cs ∧
        (src.getManyRates [c] = none ∨ src.getManyRates [c] = some [] ∨
          ∃ r0 rs, src.getManyRates [c] = some (r0 :: rs) ∧ r0 ≤ 0)) :
    ((src.getEthUsdRate now).1 = 3000 ∧ (src.getEthUsdRate now).2.1 = src) ∧
    ((src.get_price_usd WETH_ADDRESS now).1 = some 3000 ∧
      (src.get_price_usd WETH_ADDRESS now).2.1 = src) ∧
    (src.ethPriceCache.lookup (lowerAscii token) = some p → 0 < p →
      isStablecoin token = false → lowerAscii token ≠ lowerAscii WETH_ADDRESS →
      (src.get_price_usd token now).1 = some (p * 3000) ∧
      (src.get_price_usd token now).2.1 = src) := by
  have hq : (src.ethUsdRateQuery now).1 = 3000 ∧
      (src.ethUsdRateQuery now).2.1 = src := by
    unfold OracleSource.ethUsdRateQuery
    rcases hdeg with hc | ⟨c, cs, hc, hcase⟩
    · rw [hc]
      exact ⟨rfl, rfl⟩
    · rw [hc]
      dsimp only
      rcases hcase with hg | hg | ⟨r0, rs, hg, hr0⟩
      · rw [hg]
        exact ⟨rfl, rfl⟩
      · rw [hg]
        exact ⟨rfl, rfl⟩
      · rw [hg]
        dsimp only
        rw [if_neg (not_lt.mpr hr0)]
        exact ⟨rfl, rfl⟩
  have hrate : (src.getEthUsdRate now).1 = 3000 ∧
      (src.getEthUsdRate now).2.1 = src := by
    unfold OracleSource.getEthUsdRate
    cases hr : src.ethUsdRate with
    | none => exact hq
    | some r =>
      dsimp only
      rw [if_neg (not_lt.mpr (hstale r hr))]
      exact hq
  refine ⟨hrate, ⟨?_, ?_⟩, ?_⟩
  · unfold OracleSource.get_price_usd
    dsimp only
    rw [if_neg (by decide : ¬ (isStablecoin WETH_ADDRESS = true)), if_pos rfl]
    dsimp only
    rw [hrate.1]
  · unfold OracleSource.get_price_usd
    dsimp only
    rw [if_neg (by decide : ¬ (isStablecoin WETH_ADDRESS = true)), if_pos rfl]
    dsimp only
    rw [hrate.2]
  · intro hl hp hstab hweth
    unfold OracleSource.get_price_usd
    dsimp only
    rw [if_neg (by rw [hstab]; exact Bool.false_ne_true), if_neg hweth, hl]
    dsimp only
    rw [if_pos hp]
    exact ⟨by dsimp only; rw [hrate.1], by dsimp only; rw [hrate.2]⟩

theorem oracle_eth_usd_fallback_witness :
    (((OracleSource.mk [] (fun _ => none) (fun _ => none)
        [(("0xaaa"), (2 : ℚ))] none 0 60).getEthUsdRate 5).1 = 3000) ∧
    (((OracleSource.mk [] (fun _ => none) (fun _ => none)
        [(("0xaaa"), (2 : ℚ))] none 0 60).get_price_usd WETH_ADDRESS 5).1 =
      some 3000) ∧
    (((OracleSource.mk [] (fun _ => none) (fun _ => none)
        [(("0xaaa"), (2 : ℚ))] none 0 60).get_price_usd ("0xaaa") 5).1 =
      some (2 * 3000)) :=
  ⟨(oracle_eth_usd_fallback
      (OracleSource.mk [] (fun _ => none) (fun _ => none)
        [(("0xaaa"), (2 : ℚ))] none 0 60) 5 2 ("0xaaa")
      (fun r hr => by simp at hr) (Or.inl rfl)).1.1,
    (oracle_eth_usd_fallback
      (OracleSource.mk [] (fun _ => none) (fun _ => none)
        [(("0xaaa"), (2 : ℚ))] none 0 60) 5 2 ("0xaaa")
      (fun r hr => by simp at hr) (Or.inl rfl)).2.1.1,
    ((oracle_eth_usd_fallback
      (OracleSource.mk [] (fun _ => none) (fun _ => none)
        [(("0xaaa"), (2 : ℚ))] none 0 60) 5 2 ("0xaaa")
      (fun r hr => by simp at hr) (Or.inl rfl)).2.2
      (by decide) (by norm_num) (by decide) (by decide)).1⟩

/-! ## `sugar/services/data_processor.py`

The price provider seen by the aggregator is abstracted as
`prices : Option (String → Option ℚ)` (`none` models a `DataProcessor`
constructed without a price provider; the inner `Option ℚ` is
`get_price_usd` returning a result or `None`).  Python floats and `Decimal`s
are modelled as `ℚ`; `float(...)` and `Decimal(str(...))` conversions are the
identity in this model. -/

/-- `DataProcessor._process_votes(votes, governance_amount)`: veNFT vote
weights, clamped with `min(..., 1.0)`. -/
def _process_votes (votes : List (String × ℤ)) (governanceAmount : ℚ) :
    List (String × ℚ) :=
  if votes.isEmpty = true ∨ governanceAmount = 0 then []
  else votes.map fun vote => (vote.1, min (from_wei vote.2 18 / governanceAmount) 1)

/-- `DataProcessor._process_relay_votes(votes, used_voting_amount)`: relay
vote weights — the quotient is NOT clamped. -/
def _process_relay_votes (votes : List (String × ℤ)) (usedVotingAmount : ℚ) :
    List (String × ℚ) :=
  if votes.isEmpty = true ∨ usedVotingAmount = 0 then []
  else votes.map fun vote => (vote.1, from_wei vote.2 18 / usedVotingAmount)

/-- `DataProcessor._price_rewards(rewards, tokens_df)`: total USD value of the
reward entries; an entry whose price resolution returns `None` is skipped. -/
def _price_rewards (prices : Option (String → Option ℚ))
    (rewards : List (String × ℚ)) : ℚ :=
  match prices with
  | none => 0
  | some getPrice =>
    if rewards.isEmpty = true then 0
    else rewards.foldl
      (fun total r =>
        match getPrice r.1 with
        | some priceUsd => total + r.2 * priceUsd
        | none => total) 0

/-- `DataProcessor._price_token_amount(amount_wei, token_address, tokens_df)`:
wei amount scaled by the token's decimals and multiplied by its USD price,
`Decimal(0)` when the price is unresolvable (or the amount is zero or no
provider is configured). -/
def _price_token_amount (prices : Option (String → Option ℚ))
    (decimalsOf : String → Option ℕ) (amountWei : ℤ) (tokenAddress : String) : ℚ :=
  match prices with
  | none => 0
  | some getPrice =>
    if amountWei = 0 then 0
    else
      let decimals := match decimalsOf tokenAddress with
        | some d => d
        | none => 18
      let amount := from_wei amountWei decimals
      match getPrice tokenAddress with
      | some priceUsd => amount * priceUsd
      | none => 0

theorem from_wei_nonneg {v : ℤ} (d : ℕ) (hv : 0 ≤ v) : 0 ≤ from_wei v d := by
  unfold from_wei
  apply decRound_nonneg
  apply div_nonneg
  · exact_mod_cast hv
  · positivity

/-- Claim C5 fails as stated: the relay vote-weight path does not clamp.  With
one vote of raw amount `2 * 10 ^ 18` (scaled amount 2) and total 1, the
derived relay ratio is 2, strictly outside `[0, 1]`. -/
theorem relay_weight_clamp_counterexample :
    _process_relay_votes [(("0xpool"), 2 * 10 ^ 18)] 1 = [(("0xpool"), 2)] ∧
      ¬ ((2 : ℚ) ≤ 1) := by
  constructor
  · unfold _process_relay_votes
    rw [if_neg (by norm_num)]
    have hfw : from_wei (2 * 10 ^ 18) 18 = 2 := by
      unfold from_wei
      have hq : ((2 * 10 ^ 18 : ℤ) : ℚ) / 10 ^ (18 : ℕ) = ((2 : ℤ) : ℚ) := by
        push_cast
        norm_num
      rw [hq, decRound_intCast (by norm_num)]
      norm_num
    rw [List.map_cons, List.map_nil, hfw]
    norm_num
  · norm_num

/-- Claim C5 (amended): both vote-weight paths return the empty list (rather
than faulting) when the total amount is 0; for a positive total and
nonnegative raw amounts the veNFT path (`_process_votes`) clamps every ratio
into `[0, 1]`, while the relay path (`_process_relay_votes`) guarantees only
nonnegativity — its quotient is unclamped and exceeds 1 whenever the scaled
raw amount exceeds the total. -/
theorem vote_weight_derivation (votes : List (String × ℤ)) (total : ℚ) :
    (total = 0 → _process_votes votes total = [] ∧
      _process_relay_votes votes total = []) ∧
    (0 < total → (∀ v ∈ votes, 0 ≤ v.2) →
      (∀ w ∈ _process_votes votes total, 0 ≤ w.2 ∧ w.2 ≤ 1) ∧
      (∀ w ∈ _process_relay_votes votes total, 0 ≤ w.2)) := by
  constructor
  · intro h0
    constructor
    · unfold _process_votes
      rw [if_pos (Or.inr h0)]
    · unfold _process_relay_votes
      rw [if_pos (Or.inr h0)]
  · intro hpos hnn
    constructor
    · intro w hw
      unfold _process_votes at hw
      split at hw
      · simp at hw
      · obtain ⟨v, hv, hw⟩ := List.mem_map.mp hw
        subst hw
        dsimp only
        have hfw : 0 ≤ from_wei v.2 18 := from_wei_nonneg 18 (hnn v hv)
        constructor
        · exact le_min (div_nonneg hfw hpos.le) zero_le_one
        · exact min_le_right _ 1
    · intro w hw
      unfold _process_relay_votes at hw
      split at hw
      · simp at hw
      · obtain ⟨v, hv, hw⟩ := List.mem_map.mp hw
        subst hw
        dsimp only
        exact div_nonneg (from_wei_nonneg 18 (hnn v hv)) hpos.le

theorem vote_weight_derivation_witness :
    (_process_votes [(("0xp"), 10 ^ 18)] 0 = [] ∧
      _process_relay_votes [(("0xp"), 10 ^ 18)] 0 = []) ∧
    (0 ≤ ((("0xp" : String), min (from_wei (10 ^ 18) 18 / 2) 1) : String × ℚ).2 ∧
      ((("0xp" : String), min (from_wei (10 ^ 18) 18 / 2) 1) : String × ℚ).2 ≤ 1) :=
  ⟨(vote_weight_derivation [(("0xp"), 10 ^ 18)] 0).1 rfl,
    ((vote_weight_derivation [(("0xp"), 10 ^ 18)] 2).2 (by norm_num)
        (fun v hv => by
          simp only [List.mem_singleton] at hv
          rw [hv]
          norm_num)).1
      ((("0xp" : String), min (from_wei (10 ^ 18) 18 / 2) 1) : String × ℚ)
      (by
        unfold _process_votes
        rw [if_neg (by norm_num)]
        simp)⟩

theorem price_rewards_eq_foldl (getPrice : String → Option ℚ)
    (rewards : List (String × ℚ)) :
    _price_rewards (some getPrice) rewards =
      rewards.foldl
        (fun total r =>
          match getPrice r.1 with
          | some priceUsd => total + r.2 * priceUsd
          | none => total) 0 := by
  unfold _price_rewards
  cases rewards with
  | nil => rfl
  | cons r rest => rfl

/-- Claim C7: in the aggregation join, a reward entry whose token has no
resolvable price contributes exactly 0 to the rewards USD total (removing it
leaves the total unchanged), and a reserve or fee amount of an unpriceable
token is valued at exactly 0.  Both pricing helpers are total functions of the
model (price resolution failure is the `none` value, not an exception), so the
aggregator never raises for an unresolved price. -/
theorem zero_on_unknown_price (getPrice : String → Option ℚ)
    (decimalsOf : String → Option ℕ) (pre post : List (String × ℚ))
    (token : String) (amount : ℚ) (amountWei : ℤ)
    (hf : getPrice token = none) :
    _price_rewards (some getPrice) (pre ++ (token, amount) :: post) =
      _price_rewards (some getPrice) (pre ++ post) ∧
    _price_token_amount (some getPrice) decimalsOf amountWei token = 0 := by
  constructor
  · rw [price_rewards_eq_foldl, price_rewards_eq_foldl]
    rw [List.foldl_append, List.foldl_append, List.foldl_cons]
    congr 1
    dsimp only
    rw [hf]
  · unfold _price_token_amount
    dsimp only
    split
    · rfl
    · rw [hf]

theorem zero_on_unknown_price_witness :
    (_price_rewards (some fun _ => none) [(("0xt"), (7 : ℚ))] =
      _price_rewards (some fun _ => none) ([] ++ [])) ∧
    _price_token_amount (some fun _ => none) (fun _ => none) 3 ("0xt") = 0 :=
  zero_on_unknown_price (fun _ => none) (fun _ => none) [] [] ("0xt") 7 3 rfl

end Sugar
